import Mathlib

/-!
Shallow embedding of `dmenuwrap.py`, a thin wrapper around the external
`dmenu` selector tool, together with theorems about its behaviour.

The child selector process is modelled by the decoded text it writes to
standard output (the `output` argument below); process spawning, pipes and
UTF-8 byte decoding are abstracted away.  Python function objects are
modelled by `Handler` records carrying the function's `__name__`, the
parameter count reported by `inspect.signature`, and a tag telling
distinct function objects apart.
-/

deriving instance DecidableEq for Except

namespace Dmenuwrap

/-- A Python value offered as an option: either text (`str`), or a
non-text value, represented here by an integer together with its `str()`
rendering. -/
inductive PyVal where
  | str (s : String)
  | intV (n : Int)
deriving DecidableEq

/-- `str(v)`: the textual rendering used when options are written to the
child's stdin (`map(str, options)`). -/
def pyStr : PyVal → String
  | .str s => s
  | .intV n => toString n

/-- Python `==` between the decoded output string and one option value:
`str == str` compares text, while `str == int` is `False`. -/
def pyEqStr (s : String) : PyVal → Bool
  | .str t => s = t
  | .intV _ => false

/-- The ASCII whitespace characters stripped by `str.rstrip()`. -/
def isPySpace (c : Char) : Bool :=
  c = ' ' || c = '\t' || c = '\n' || c = '\r' || c = '\x0b' || c = '\x0c'

/-- `str.rstrip()`: remove all trailing whitespace. -/
def rstrip (s : String) : String :=
  ⟨(s.data.reverse.dropWhile isPySpace).reverse⟩

/-- The text written to the child's stdin: `'\n'.join(map(str, options))`. -/
def optionLines (options : List PyVal) : String :=
  String.intercalate ("\n") (options.map pyStr)

/-- The function `dmenu(options, args, path)`.  The child's decoded stdout
is `output`; the function strips trailing whitespace and returns the
stripped text when it compares `==`-equal to one of the supplied options
(`option in options`), and `None` otherwise. -/
def dmenu (options : List PyVal) (output : String) : Option String :=
  let option := rstrip output
  if options.any (pyEqStr option) then some option else none

/-- `DMenu.run` for a driver whose `create_options` produced `options`:
the returned value is the `(option, options)` argument pair handed to
`handle_option`, or `none` when the handling step is skipped (the guard
`if option:` is false both for `None` and for the empty string). -/
def DMenuRun (options : List PyVal) (output : String) :
    Option (String × List PyVal) :=
  match dmenu options output with
  | some o => if o = "" then none else some (o, options)
  | none => none

/-- Python `<` on `str`: lexicographic comparison of the code-point
sequences. -/
def strLt (a b : String) : Bool := decide (a.data < b.data)

/-- A Python function object: its `__name__`, the number of parameters
reported by `inspect.signature`, and a tag distinguishing distinct
function objects that share a name. -/
structure Handler where
  name : String
  arity : Nat
  tag : Nat
deriving DecidableEq

/-- The list comprehension in `HandlerListDMenu.__init__`:
`[(fn.__name__, fn) for fn in option_handlers if len(...parameters) == 0]`. -/
def handlerList (option_handlers : List Handler) : List (String × Handler) :=
  (option_handlers.filter (fun h => h.arity = 0)).map (fun h => (h.name, h))

/-- Python `<` on the tuples `(fn.__name__, fn)`: names are compared as
text; equal names fall through to the function objects, where `==` is
identity and `<` raises `TypeError` (functions are unorderable). -/
def tupLt (a b : String × Handler) : Except Unit Bool :=
  if strLt a.1 b.1 then .ok true
  else if strLt b.1 a.1 then .ok false
  else if a.2 = b.2 then .ok false
  else .error ()

/-- Insert one tuple into an already sorted list, propagating the
`TypeError` that tuple comparison may raise. -/
def insertSorted (x : String × Handler) :
    List (String × Handler) → Except Unit (List (String × Handler))
  | [] => .ok [x]
  | y :: ys => do
    let lt ← tupLt x y
    if lt then .ok (x :: y :: ys)
    else do
      let t ← insertSorted x ys
      .ok (y :: t)

/-- `sorted(handler_list)`: comparison-based sort of the `(name, fn)`
tuples, raising when two tuples with equal names but distinct function
objects are compared. -/
def sortedPairs :
    List (String × Handler) → Except Unit (List (String × Handler))
  | [] => .ok []
  | x :: xs => do
    let s ← sortedPairs xs
    insertSorted x s

/-- One `dict` assignment `m[k] = v`: an existing key keeps its position
and gets the new value, a new key is appended at the end. -/
def odInsert (m : List (String × Handler)) (p : String × Handler) :
    List (String × Handler) :=
  if m.any (fun q => q.1 = p.1) then
    m.map (fun q => if q.1 = p.1 then p else q)
  else m ++ [p]

/-- `OrderedDict(handler_list)`: insert the pairs left to right. -/
def orderedDict (ps : List (String × Handler)) : List (String × Handler) :=
  ps.foldl odInsert []

/-- `HandlerListDMenu.__init__(option_handlers, sort)`: filter to the
zero-parameter handlers, optionally sort the `(name, fn)` tuples, and
build the `option_handlers` ordered mapping.  The `Except` layer carries
the `TypeError` that `sorted` may raise. -/
def HandlerListDMenu.init (option_handlers : List Handler) (sort : Bool) :
    Except Unit (List (String × Handler)) := do
  let hl := handlerList option_handlers
  let hl' ← if sort then sortedPairs hl else .ok hl
  .ok (orderedDict hl')

/-- `HandlerListDMenu.create_options`: the keys of the mapping, in order. -/
def create_options (d : List (String × Handler)) : List String :=
  d.map (fun q => q.1)

/-- `HandlerListDMenu.handle_option`: when the option is truthy, look it
up (`KeyError`, modelled as `.error`, when absent) and call the handler;
the result records which handler was invoked, if any. -/
def handle_option (d : List (String × Handler)) (option : String) :
    Except Unit (Option Handler) :=
  if option = "" then .ok none
  else
    match d.find? (fun q => q.1 = option) with
    | some q => .ok (some q.2)
    | none => .error ()

/-- `DMenu.run` as inherited by `HandlerListDMenu`: produce the options
(the mapping's keys), call `dmenu`, and hand any truthy result to
`handle_option`. -/
def HandlerListDMenu.run (d : List (String × Handler)) (output : String) :
    Except Unit (Option Handler) :=
  let options := create_options d
  match dmenu (options.map PyVal.str) output with
  | none => .ok none
  | some o => if o = "" then .ok none else handle_option d o

/-- Insertion step of the name-keyed sort performed by
`inspect.getmembers` (which sorts its result list by member name). -/
def membersSortInsert (x : Handler) : List Handler → List Handler
  | [] => [x]
  | y :: ys =>
    if strLt x.name y.name then x :: y :: ys else y :: membersSortInsert x ys

/-- `inspect.getmembers(obj, inspect.isfunction)`: the function members of
the object, sorted by name.  The object is modelled by the list of its
function members. -/
def getmembers (obj : List Handler) : List Handler :=
  obj.foldr membersSortInsert []

/-- `name.startswith('__')`: the name begins with two underscores. -/
def startsDunder (s : String) : Bool :=
  match s.data with
  | c₁ :: c₂ :: _ => c₁ = '_' && c₂ = '_'
  | _ => false

/-- `HandlerDMenu.__init__(option_handlers)`: keep the function members
whose name does not begin with `__` and build a `HandlerListDMenu` with
`sort=False`. -/
def HandlerDMenu.init (obj : List Handler) :
    Except Unit (List (String × Handler)) :=
  HandlerListDMenu.init
    ((getmembers obj).filter (fun h => !startsDunder h.name)) false

/-! ### Basic lemmas about `dmenu` -/

theorem pyEqStr_iff {s : String} {v : PyVal} :
    pyEqStr s v = true ↔ v = PyVal.str s := by
  cases v with
  | str t => simp [pyEqStr, eq_comm]
  | intV n => simp [pyEqStr]

theorem any_pyEqStr {options : List PyVal} {s : String} :
    options.any (pyEqStr s) = true ↔ PyVal.str s ∈ options := by
  simp [List.any_eq_true, pyEqStr_iff]

theorem dmenu_eq_some_iff {options : List PyVal} {output o : String} :
    dmenu options output = some o ↔
      o = rstrip output ∧ PyVal.str o ∈ options := by
  unfold dmenu
  by_cases hm : PyVal.str (rstrip output) ∈ options
  · rw [if_pos (any_pyEqStr.mpr hm)]
    constructor
    · intro h
      injection h with h
      exact ⟨h.symm, h ▸ hm⟩
    · rintro ⟨h1, _⟩
      rw [h1]
  · rw [if_neg (fun hc => hm (any_pyEqStr.mp hc))]
    constructor
    · intro h
      exact absurd h (by simp)
    · rintro ⟨h1, h2⟩
      exact absurd (h1 ▸ h2) hm

theorem dmenu_eq_none_iff {options : List PyVal} {output : String} :
    dmenu options output = none ↔ PyVal.str (rstrip output) ∉ options := by
  unfold dmenu
  by_cases hm : PyVal.str (rstrip output) ∈ options
  · rw [if_pos (any_pyEqStr.mpr hm)]
    simp [hm]
  · rw [if_neg (fun hc => hm (any_pyEqStr.mp hc))]
    simp [hm]

/-! ### Claims about `dmenu` and `DMenu.run` -/

/-- C1: for every options sequence and child output, `dmenu` returns the
decoded output with trailing whitespace stripped exactly when that
stripped text equals (`==`) one of the supplied options, and `None`
otherwise. -/
theorem dmenu_returns_stripped_match (options : List PyVal) (output : String) :
    dmenu options output =
      if PyVal.str (rstrip output) ∈ options then some (rstrip output)
      else none := by
  by_cases hm : PyVal.str (rstrip output) ∈ options
  · rw [if_pos hm]
    exact dmenu_eq_some_iff.mpr ⟨rfl, hm⟩
  · rw [if_neg hm]
    exact dmenu_eq_none_iff.mpr hm

/-- C2, counterexample: an option carrying trailing whitespace is not
returned even when the selector echoes it back verbatim, because the
output is stripped before the membership test. -/
theorem dmenu_roundtrip_trailing_space_cex :
    dmenu [PyVal.str ("a ")] "a " = none := by decide

/-- C2, amended: the round trip holds for options whose text carries no
trailing whitespace: if the selector echoes back such an option, `dmenu`
returns exactly it. -/
theorem dmenu_roundtrip_no_trailing_ws (options : List PyVal) (s : String)
    (hmem : PyVal.str s ∈ options) (hns : rstrip s = s) :
    dmenu options s = some s :=
  dmenu_eq_some_iff.mpr ⟨hns.symm, hmem⟩

/-- C2, witness for the amended theorem. -/
theorem dmenu_roundtrip_no_trailing_ws_witness :
    dmenu [PyVal.str ("a")] "a" = some "a" :=
  dmenu_roundtrip_no_trailing_ws [PyVal.str ("a")] "a" (by decide) (by decide)

/-- C3, counterexample: when the empty string is itself one of the
options and the selector outputs it, `dmenu` returns it (it is not
absent), yet `DMenu.run` skips `handle_option`, because the guard
`if option:` is false for the empty string. -/
theorem run_skips_truthy_empty_cex :
    dmenu [PyVal.str ("")] "" = some "" ∧ DMenuRun [PyVal.str ("")] "" = none := by
  constructor <;> decide

/-- C3, amended: `DMenu.run` hands `(option, options)` to `handle_option`
exactly when `dmenu` returned a non-empty option; handling is skipped
when the result is `None` or the empty string. -/
theorem DMenuRun_eq_some_iff (options : List PyVal) (output : String)
    (r : String × List PyVal) :
    DMenuRun options output = some r ↔
      dmenu options output = some r.1 ∧ r.1 ≠ "" ∧ r.2 = options := by
  unfold DMenuRun
  cases hc : dmenu options output with
  | none => simp
  | some o =>
    by_cases ho : o = ""
    · subst ho
      simp only [if_pos rfl]
      constructor
      · intro h
        exact absurd h (by simp)
      · rintro ⟨h1, h2, _⟩
        injection h1 with h1
        exact absurd h1.symm h2
    · simp only [if_neg ho]
      constructor
      · intro h
        injection h with h
        subst h
        exact ⟨rfl, ho, rfl⟩
      · rintro ⟨h1, _, h3⟩
        injection h1 with h1
        cases r
        simp_all

/-- C5, counterexample: when the empty string is one of the options, a
selector writing empty output makes `dmenu` return the empty string, not
`None`. -/
theorem dmenu_empty_output_cex :
    dmenu [PyVal.str ("")] "" = some "" := by decide

/-- C5, amended: when the selector's output strips to empty text and the
empty string is not itself among the options, `dmenu` returns `None`. -/
theorem dmenu_empty_output_none (options : List PyVal) (output : String)
    (h1 : rstrip output = "") (h2 : PyVal.str ("") ∉ options) :
    dmenu options output = none :=
  dmenu_eq_none_iff.mpr (h1 ▸ h2)

/-- C5, witness for the amended theorem. -/
theorem dmenu_empty_output_none_witness :
    dmenu [PyVal.str ("a")] "  " = none :=
  dmenu_empty_output_none [PyVal.str ("a")] "  " (by decide) (by decide)

/-- C10, counterexample: `str(42)` is the displayed line of the non-text
option `42`; echoing it back does not yield `None` when a text option
with the same content is also present — the text option is returned. -/
theorem dmenu_nontext_echo_cex :
    pyStr (PyVal.intV 42) = "42" ∧
      dmenu [PyVal.intV 42, PyVal.str ("42")] "42" = some "42" := by
  constructor <;> decide

/-- C10, amended: a selector echoing the displayed line of a non-text
option yields `None` provided no text option's content equals the
stripped displayed line; the options are rendered with `str` on stdin but
the output is compared against the original values, which a non-text
value never equals. -/
theorem dmenu_nontext_echo_none (options : List PyVal) (n : Int)
    (hmem : PyVal.intV n ∈ options)
    (hnostr : PyVal.str (rstrip (pyStr (PyVal.intV n))) ∉ options) :
    dmenu options (pyStr (PyVal.intV n)) = none :=
  dmenu_eq_none_iff.mpr hnostr

/-- C10, witness for the amended theorem. -/
theorem dmenu_nontext_echo_none_witness :
    dmenu [PyVal.intV 7] (pyStr (PyVal.intV 7)) = none :=
  dmenu_nontext_echo_none [PyVal.intV 7] 7 (by decide) (by decide)

/-! ### Lemmas about the ordered mapping -/

theorem orderedDict_append (ps : List (String × Handler))
    (p : String × Handler) :
    orderedDict (ps ++ [p]) = odInsert (orderedDict ps) p := by
  simp [orderedDict, List.foldl_append]

theorem find?_map_update (m : List (String × Handler)) (p : String × Handler) :
    (m.map (fun q => if q.1 = p.1 then p else q)).find? (fun q => q.1 = p.1) =
      (m.find? (fun q => q.1 = p.1)).map (fun _ => p) := by
  induction m with
  | nil => rfl
  | cons q m ih =>
    by_cases hq : q.1 = p.1
    · simp [hq]
    · simp [hq, ih]

theorem find?_odInsert_self (m : List (String × Handler))
    (p : String × Handler) :
    (odInsert m p).find? (fun q => q.1 = p.1) = some p := by
  unfold odInsert
  by_cases hc : m.any (fun q => q.1 = p.1) = true
  · rw [if_pos hc, find?_map_update]
    have hsome : (m.find? (fun q => q.1 = p.1)).isSome := by
      obtain ⟨x, hx, hpx⟩ := List.any_eq_true.mp hc
      exact List.find?_isSome.mpr ⟨x, hx, hpx⟩
    cases hf : m.find? (fun q => q.1 = p.1) with
    | none => rw [hf] at hsome; simp at hsome
    | some q => simp
  · rw [if_neg hc, List.find?_append]
    have hnone : m.find? (fun q => q.1 = p.1) = none :=
      List.find?_eq_none.mpr
        (fun x hx hpx => hc (List.any_eq_true.mpr ⟨x, hx, hpx⟩))
    simp [hnone]

theorem find?_map_update_ne {k : String} (m : List (String × Handler))
    (p : String × Handler) (hk : p.1 ≠ k) :
    (m.map (fun q => if q.1 = p.1 then p else q)).find? (fun q => q.1 = k) =
      m.find? (fun q => q.1 = k) := by
  induction m with
  | nil => rfl
  | cons q m ih =>
    rw [List.map_cons]
    by_cases hq : q.1 = p.1
    · rw [if_pos hq]
      rw [List.find?_cons_of_neg _ (by simpa using hk),
        List.find?_cons_of_neg _ (by simpa using fun h => hk (hq.symm.trans h)),
        ih]
    · rw [if_neg hq]
      by_cases hqk : q.1 = k
      · rw [List.find?_cons_of_pos _ (by simpa using hqk),
          List.find?_cons_of_pos _ (by simpa using hqk)]
      · rw [List.find?_cons_of_neg _ (by simpa using hqk),
          List.find?_cons_of_neg _ (by simpa using hqk), ih]

theorem find?_odInsert_ne {k : String} (m : List (String × Handler))
    (p : String × Handler) (hk : p.1 ≠ k) :
    (odInsert m p).find? (fun q => q.1 = k) = m.find? (fun q => q.1 = k) := by
  unfold odInsert
  by_cases hc : m.any (fun q => q.1 = p.1) = true
  · rw [if_pos hc, find?_map_update_ne m p hk]
  · rw [if_neg hc, List.find?_append]
    cases hf : m.find? (fun q => q.1 = k) with
    | some q => simp
    | none => simp [hk]

theorem orderedDict_find? (ps : List (String × Handler)) (k : String) :
    (orderedDict ps).find? (fun q => q.1 = k) =
      (ps.filter (fun q => q.1 = k)).getLast? := by
  induction ps using List.reverseRecOn with
  | nil => rfl
  | append_singleton ps p ih =>
    rw [orderedDict_append, List.filter_append]
    by_cases hpk : p.1 = k
    · subst hpk
      rw [find?_odInsert_self]
      simp
    · rw [find?_odInsert_ne (orderedDict ps) p hpk, ih]
      simp [hpk]

theorem keys_odInsert {k : String} (m : List (String × Handler))
    (p : String × Handler) :
    k ∈ (odInsert m p).map (fun q => q.1) ↔
      k ∈ m.map (fun q => q.1) ∨ k = p.1 := by
  unfold odInsert
  by_cases hc : m.any (fun q => q.1 = p.1) = true
  · rw [if_pos hc]
    have hmap : (m.map (fun q => if q.1 = p.1 then p else q)).map
        (fun q => q.1) = m.map (fun q => q.1) := by
      rw [List.map_map]
      refine List.map_congr_left (fun q hq => ?_)
      by_cases h : q.1 = p.1
      · simp [h]
      · simp [h]
    rw [hmap]
    obtain ⟨x, hx, hpx⟩ := List.any_eq_true.mp hc
    have hx1 : x.1 = p.1 := by simpa using hpx
    constructor
    · exact Or.inl
    · rintro (h | h)
      · exact h
      · subst h
        exact List.mem_map.mpr ⟨x, hx, hx1⟩
  · rw [if_neg hc]
    simp [List.map_append]

theorem keys_orderedDict {k : String} (ps : List (String × Handler)) :
    k ∈ (orderedDict ps).map (fun q => q.1) ↔
      k ∈ ps.map (fun q => q.1) := by
  induction ps using List.reverseRecOn with
  | nil => simp [orderedDict]
  | append_singleton ps p ih =>
    rw [orderedDict_append, List.map_append, List.mem_append]
    constructor
    · intro h
      rcases (keys_odInsert (orderedDict ps) p).mp h with h | h
      · exact Or.inl (ih.mp h)
      · exact Or.inr (by simp [h])
    · intro h
      refine (keys_odInsert (orderedDict ps) p).mpr ?_
      rcases h with h | h
      · exact Or.inl (ih.mpr h)
      · exact Or.inr (by simpa using h)

theorem orderedDict_eq_self (ps : List (String × Handler))
    (h : (ps.map (fun q => q.1)).Pairwise (fun a b => a ≠ b)) :
    orderedDict ps = ps := by
  induction ps using List.reverseRecOn with
  | nil => rfl
  | append_singleton ps p ih =>
    rw [List.map_append, List.pairwise_append] at h
    obtain ⟨h1, _, h3⟩ := h
    rw [orderedDict_append, ih h1]
    unfold odInsert
    rw [if_neg ?hneg]
    case hneg =>
      intro hc
      obtain ⟨x, hx, hpx⟩ := List.any_eq_true.mp hc
      have hx1 : x.1 = p.1 := by simpa using hpx
      exact h3 x.1 (List.mem_map.mpr ⟨x, hx, rfl⟩) p.1 (by simp) hx1

theorem init_false_eq (option_handlers : List Handler) :
    HandlerListDMenu.init option_handlers false =
      .ok (orderedDict (handlerList option_handlers)) := rfl

/-! ### Claims about `HandlerListDMenu.__init__` and duplicates -/

/-- C4, counterexample: under the default configuration (`sort=True`),
two distinct zero-argument handlers sharing a name make construction
raise, because `sorted` compares the `(name, fn)` tuples and falls
through to the unorderable function objects (`TypeError`). -/
theorem hld_init_dup_default_raises_cex :
    HandlerListDMenu.init [⟨"f", 0, 0⟩, ⟨"f", 0, 1⟩] true = .error () := by
  decide

/-- C4, amended: with `sort=False` construction always succeeds, and the
resulting name-to-handler mapping keeps, under each name, the last
`(name, fn)` pair supplied (last write wins); under the default
`sort=True` configuration, duplicate names among distinct included
handlers instead raise a `TypeError`. -/
theorem hld_init_nosort_last_wins (option_handlers : List Handler) :
    ∃ d, HandlerListDMenu.init option_handlers false = .ok d ∧
      ∀ k, d.find? (fun q => q.1 = k) =
        ((handlerList option_handlers).filter
          (fun q => q.1 = k)).getLast? :=
  ⟨orderedDict (handlerList option_handlers), init_false_eq _,
    fun k => orderedDict_find? _ k⟩

/-! ### Lemmas about the tuple sort -/

theorem except_bind_ok {α β : Type} (a : α) (f : α → Except Unit β) :
    ((Except.ok a : Except Unit α) >>= f) = f a := rfl

theorem except_bind_error {α β : Type} (f : α → Except Unit β) :
    ((Except.error () : Except Unit α) >>= f) = Except.error () := rfl

theorem strLt_trans {a b c : String} (h1 : strLt a b = true)
    (h2 : strLt b c = true) : strLt a c = true := by
  simp only [strLt, decide_eq_true_eq] at h1 h2 ⊢
  exact lt_trans h1 h2

theorem eq_of_not_strLt {a b : String} (h1 : strLt a b = false)
    (h2 : strLt b a = false) : a = b := by
  simp only [strLt, decide_eq_false_iff_not] at h1 h2
  have hd : a.data = b.data := le_antisymm (not_lt.mp h2) (not_lt.mp h1)
  cases a
  cases b
  simp_all

theorem strLt_irrefl (a : String) : strLt a a = false := by
  simp only [strLt, decide_eq_false_iff_not]
  exact lt_irrefl _

theorem insertSorted_perm :
    ∀ {t u : List (String × Handler)} {x : String × Handler},
      insertSorted x t = .ok u → u.Perm (x :: t) := by
  intro t
  induction t with
  | nil =>
    intro u x h
    injection h with h
    subst h
    exact List.Perm.refl _
  | cons y ys ih =>
    intro u x h
    simp only [insertSorted] at h
    cases htl : tupLt x y with
    | error e =>
      cases e
      rw [htl, except_bind_error] at h
      simp at h
    | ok lt =>
      rw [htl, except_bind_ok] at h
      cases lt with
      | true =>
        rw [if_pos rfl] at h
        injection h with h
        subst h
        exact List.Perm.refl _
      | false =>
        rw [if_neg (by simp)] at h
        cases hr : insertSorted x ys with
        | error e =>
          cases e
          rw [hr, except_bind_error] at h
          simp at h
        | ok t' =>
          rw [hr, except_bind_ok] at h
          injection h with h
          subst h
          exact ((ih hr).cons y).trans (List.Perm.swap x y ys)

theorem sortedPairs_perm :
    ∀ {l s : List (String × Handler)},
      sortedPairs l = .ok s → s.Perm l := by
  intro l
  induction l with
  | nil =>
    intro s h
    injection h with h
    subst h
    exact List.Perm.refl _
  | cons x xs ih =>
    intro s h
    simp only [sortedPairs] at h
    cases hs : sortedPairs xs with
    | error e =>
      cases e
      rw [hs, except_bind_error] at h
      simp at h
    | ok t =>
      rw [hs, except_bind_ok] at h
      exact (insertSorted_perm h).trans ((ih hs).cons x)

theorem insertSorted_ok_sorted :
    ∀ (t : List (String × Handler)) (x : String × Handler),
      x.1 ∉ t.map (fun q => q.1) →
      (t.map (fun q => q.1)).Pairwise (fun a b => strLt a b = true) →
      ∃ u, insertSorted x t = .ok u ∧
        (u.map (fun q => q.1)).Pairwise (fun a b => strLt a b = true) := by
  intro t
  induction t with
  | nil =>
    intro x _ _
    exact ⟨[x], rfl, by simp⟩
  | cons y ys ih =>
    intro x hx hs
    rw [List.map_cons] at hx hs
    have hxy : x.1 ≠ y.1 := fun h => hx (by simp [h])
    have hxys : x.1 ∉ ys.map (fun q => q.1) := fun h => hx (by simp [h])
    rw [List.pairwise_cons] at hs
    obtain ⟨hy, hys⟩ := hs
    by_cases hlt : strLt x.1 y.1 = true
    · have htl : tupLt x y = .ok true := by simp [tupLt, hlt]
      refine ⟨x :: y :: ys, ?_, ?_⟩
      · simp [insertSorted, htl, except_bind_ok]
      · rw [List.map_cons, List.map_cons, List.pairwise_cons]
        refine ⟨?_, List.pairwise_cons.mpr ⟨hy, hys⟩⟩
        intro b hb
        rcases List.mem_cons.mp hb with hb | hb
        · exact hb ▸ hlt
        · exact strLt_trans hlt (hy b hb)
    · have hlt' : strLt x.1 y.1 = false := by
        cases hv : strLt x.1 y.1 with
        | true => exact absurd hv hlt
        | false => rfl
      have hgt : strLt y.1 x.1 = true := by
        cases hv : strLt y.1 x.1 with
        | true => rfl
        | false => exact absurd (eq_of_not_strLt hlt' hv) hxy
      have htl : tupLt x y = .ok false := by simp [tupLt, hlt', hgt]
      obtain ⟨t', ht', hsort'⟩ := ih x hxys hys
      refine ⟨y :: t', ?_, ?_⟩
      · simp [insertSorted, htl, ht', except_bind_ok]
      · rw [List.map_cons, List.pairwise_cons]
        refine ⟨?_, hsort'⟩
        intro b hb
        have hperm : (t'.map (fun q => q.1)).Perm
            (x.1 :: ys.map (fun q => q.1)) := by
          have hp := (insertSorted_perm ht').map (fun q => q.1)
          simpa using hp
        rcases List.mem_cons.mp (hperm.mem_iff.mp hb) with hb' | hb'
        · exact hb' ▸ hgt
        · exact hy b hb'

theorem sortedPairs_ok_sorted :
    ∀ (l : List (String × Handler)),
      (l.map (fun q => q.1)).Pairwise (fun a b => a ≠ b) →
      ∃ s, sortedPairs l = .ok s ∧
        (s.map (fun q => q.1)).Pairwise (fun a b => strLt a b = true) := by
  intro l
  induction l with
  | nil => exact fun _ => ⟨[], rfl, by simp⟩
  | cons x xs ih =>
    intro hd
    rw [List.map_cons, List.pairwise_cons] at hd
    obtain ⟨hx, hxs⟩ := hd
    obtain ⟨s, hs, hsort⟩ := ih hxs
    have hperm := (sortedPairs_perm hs).map (fun q => q.1)
    have hxmem : x.1 ∉ s.map (fun q => q.1) := by
      intro hmem
      exact hx x.1 (hperm.mem_iff.mp hmem) rfl
    obtain ⟨u, hu, husort⟩ := insertSorted_ok_sorted s x hxmem hsort
    refine ⟨u, ?_, husort⟩
    simp only [sortedPairs, hs, except_bind_ok, hu]

theorem init_true_ok {option_handlers : List Handler}
    {d : List (String × Handler)}
    (h : HandlerListDMenu.init option_handlers true = .ok d) :
    ∃ s, sortedPairs (handlerList option_handlers) = .ok s ∧
      d = orderedDict s := by
  simp only [HandlerListDMenu.init, if_pos rfl] at h
  cases hc : sortedPairs (handlerList option_handlers) with
  | error e =>
    cases e
    rw [hc, except_bind_error] at h
    simp at h
  | ok s =>
    rw [hc, except_bind_ok] at h
    injection h with h
    exact ⟨s, rfl, h.symm⟩

theorem mem_keys_handlerList {option_handlers : List Handler} {k : String} :
    k ∈ (handlerList option_handlers).map (fun q => q.1) ↔
      ∃ h ∈ option_handlers, h.arity = 0 ∧ h.name = k := by
  unfold handlerList
  simp [List.mem_filter, and_assoc]

/-! ### Claims about the produced options and dispatch -/

/-- C6: whenever construction of a `HandlerListDMenu` succeeds, the
produced options are exactly the names of the supplied handlers whose
signature has zero parameters; handlers with one or more parameters are
excluded. -/
theorem hld_options_iff_zero_arity (option_handlers : List Handler)
    (sort : Bool) (d : List (String × Handler))
    (h : HandlerListDMenu.init option_handlers sort = .ok d) (k : String) :
    k ∈ create_options d ↔
      ∃ hh ∈ option_handlers, hh.arity = 0 ∧ hh.name = k := by
  have hkeys : (k ∈ d.map (fun q => q.1)) ↔
      k ∈ (handlerList option_handlers).map (fun q => q.1) := by
    cases sort with
    | false =>
      rw [init_false_eq] at h
      injection h with h
      subst h
      exact keys_orderedDict _
    | true =>
      obtain ⟨s, hs, hd⟩ := init_true_ok h
      subst hd
      refine (keys_orderedDict _).trans ?_
      exact ((sortedPairs_perm hs).map (fun q => q.1)).mem_iff
  exact hkeys.trans mem_keys_handlerList

/-- C6, witness: from handlers `a()`, `b(x)`, `c()` the option `a` is
produced. -/
theorem hld_options_iff_zero_arity_witness :
    "a" ∈ create_options [("a", (⟨"a", 0, 0⟩ : Handler)), ("c", ⟨"c", 0, 2⟩)] :=
  (hld_options_iff_zero_arity [⟨"a", 0, 0⟩, ⟨"b", 1, 1⟩, ⟨"c", 0, 2⟩] true
      [("a", ⟨"a", 0, 0⟩), ("c", ⟨"c", 0, 2⟩)] (by decide) "a").mpr
    ⟨⟨"a", 0, 0⟩, by decide, rfl, rfl⟩

/-- C7: over distinctly-named zero-argument handlers, construction
succeeds for both flags; with `sort=True` the produced options are a
permutation of the handler names arranged in strictly increasing
lexicographic order, and with `sort=False` they are the names in the
order supplied. -/
theorem hld_sort_orders_names (option_handlers : List Handler)
    (hz : ∀ h ∈ option_handlers, h.arity = 0)
    (hd : (option_handlers.map Handler.name).Pairwise (fun a b => a ≠ b)) :
    (∃ d, HandlerListDMenu.init option_handlers true = .ok d ∧
        (create_options d).Perm (option_handlers.map Handler.name) ∧
        (create_options d).Pairwise (fun a b => strLt a b = true)) ∧
    ∃ d, HandlerListDMenu.init option_handlers false = .ok d ∧
      create_options d = option_handlers.map Handler.name := by
  have hfl : handlerList option_handlers =
      option_handlers.map (fun h => (h.name, h)) := by
    unfold handlerList
    rw [List.filter_eq_self.mpr (fun a ha => by simpa using hz a ha)]
  have hkeys : (handlerList option_handlers).map (fun q => q.1) =
      option_handlers.map Handler.name := by
    rw [hfl, List.map_map]
    rfl
  constructor
  · obtain ⟨s, hs, hsort⟩ := sortedPairs_ok_sorted (handlerList option_handlers)
      (by rw [hkeys]; exact hd)
    have hdistinct : (s.map (fun q => q.1)).Pairwise (fun a b => a ≠ b) := by
      refine hsort.imp ?_
      intro a b hab heq
      rw [heq, strLt_irrefl] at hab
      exact Bool.noConfusion hab
    refine ⟨orderedDict s, ?_, ?_, ?_⟩
    · simp [HandlerListDMenu.init, hs, except_bind_ok]
    · rw [orderedDict_eq_self s hdistinct]
      show (s.map (fun q => q.1)).Perm _
      rw [← hkeys]
      exact (sortedPairs_perm hs).map _
    · rw [orderedDict_eq_self s hdistinct]
      exact hsort
  · refine ⟨orderedDict (handlerList option_handlers), init_false_eq _, ?_⟩
    rw [orderedDict_eq_self _ (by rw [hkeys]; exact hd)]
    show (handlerList option_handlers).map (fun q => q.1) = _
    exact hkeys

/-- C7, witness: handlers named `banana`, `apple` in that order. -/
theorem hld_sort_orders_names_witness :
    ((∃ d, HandlerListDMenu.init [⟨"banana", 0, 0⟩, ⟨"apple", 0, 1⟩] true =
          .ok d ∧
        (create_options d).Perm
          ([(⟨"banana", 0, 0⟩ : Handler), ⟨"apple", 0, 1⟩].map Handler.name) ∧
        (create_options d).Pairwise (fun a b => strLt a b = true)) ∧
      ∃ d, HandlerListDMenu.init [⟨"banana", 0, 0⟩, ⟨"apple", 0, 1⟩] false =
          .ok d ∧
        create_options d =
          [(⟨"banana", 0, 0⟩ : Handler), ⟨"apple", 0, 1⟩].map Handler.name) :=
  hld_sort_orders_names [⟨"banana", 0, 0⟩, ⟨"apple", 0, 1⟩]
    (by decide) (by decide)

/-- C8: the object-reflection driver never produces an option whose name
begins with the double-underscore prefix, whatever the target object's
members are. -/
theorem handler_dmenu_excludes_dunder (obj : List Handler) :
    ∃ d, HandlerDMenu.init obj = .ok d ∧
      ∀ k ∈ create_options d, startsDunder k = false := by
  unfold HandlerDMenu.init
  refine ⟨_, init_false_eq _, ?_⟩
  intro k hk
  have hk0 : k ∈ (orderedDict (handlerList ((getmembers obj).filter
      (fun h => !startsDunder h.name)))).map (fun q => q.1) := hk
  have hk' := (keys_orderedDict _).mp hk0
  obtain ⟨hh, hmem, _, hname⟩ := mem_keys_handlerList.mp hk'
  have hf := List.mem_filter.mp hmem
  rw [← hname]
  simpa using hf.2

/-- C9: when the mapping was built by `HandlerListDMenu.__init__`,
running the menu can never hit the `KeyError` branch of
`handle_option`: each non-absent, non-empty result of `dmenu` is one of
the produced options, which are exactly the mapping's keys. -/
theorem hld_run_never_keyerror (option_handlers : List Handler) (sort : Bool)
    (d : List (String × Handler))
    (hinit : HandlerListDMenu.init option_handlers sort = .ok d)
    (output : String) :
    ∃ r, HandlerListDMenu.run d output = .ok r := by
  have hrun : HandlerListDMenu.run d output =
      match dmenu ((create_options d).map PyVal.str) output with
      | none => Except.ok none
      | some o => if o = "" then Except.ok none else handle_option d o := rfl
  rw [hrun]
  cases hc : dmenu ((create_options d).map PyVal.str) output with
  | none => exact ⟨none, rfl⟩
  | some o =>
    by_cases ho : o = ""
    · refine ⟨none, ?_⟩
      show (if o = "" then Except.ok none else handle_option d o) =
        Except.ok none
      rw [if_pos ho]
    · obtain ⟨h1, h2⟩ := dmenu_eq_some_iff.mp hc
      have hmem : o ∈ create_options d := by
        rcases List.mem_map.mp h2 with ⟨a, ha, haeq⟩
        have hao : a = o := by injection haeq
        exact hao ▸ ha
      have hfind : (d.find? (fun q' => q'.1 = o)).isSome := by
        refine List.find?_isSome.mpr ?_
        rcases List.mem_map.mp hmem with ⟨q, hq, hq1⟩
        exact ⟨q, hq, by simp [hq1]⟩
      cases hq : d.find? (fun q' => q'.1 = o) with
      | none => rw [hq] at hfind; simp at hfind
      | some q =>
        refine ⟨some q.2, ?_⟩
        show (if o = "" then Except.ok none else handle_option d o) = _
        rw [if_neg ho]
        unfold handle_option
        rw [if_neg ho, hq]

/-- C9, witness. -/
theorem hld_run_never_keyerror_witness :
    ∃ r, HandlerListDMenu.run [("a", ⟨"a", 0, 0⟩)] "a" = .ok r :=
  hld_run_never_keyerror [⟨"a", 0, 0⟩] true [("a", ⟨"a", 0, 0⟩)]
    (by decide) "a"

end Dmenuwrap
